import Mathlib

/-!
Verification development for the repository's GitHub file-tree command.

The definitions below are a shallow embedding of the Python source:
* `src/src/cogs/github_cog.py`, command `github_tree` (input parsing,
  `format_tree` with its nested `build_lines`, the chunking loop, the
  embed-limit truncation step, and the file-vs-embeds decision), and
* `src/src/utils/github_utils.py`, function `github_request`.

Python strings are sequences of Unicode code points; we model them as
Lean `String` values and perform indexing/slicing/length on the
underlying `List Char` (`String.data`), which matches Python's
code-point semantics.  Python's `str.lower` is modelled with
`Char.toLower` (identical on ASCII, the alphabet relevant here).
Python `dict`s preserve insertion order; they are modelled as
insertion-ordered association lists with unique keys, which is how the
source code uses them.  Python's `sorted` is a stable sort by a total
preorder; it is modelled by a stable insertion sort, which produces the
same output as any stable sort for a total preorder key.
-/

/-! ### Python-style string primitives -/

/-- Length of a Python string (number of code points). -/
def pyLen (s : String) : Nat := s.data.length

/-- Build a string from a list of characters. -/
def ofChars (l : List Char) : String := String.mk l

/-- Python slice `s[:n]` (first `n` code points). -/
def pyTake (s : String) (n : Nat) : String := ofChars (s.data.take n)

/-- Python slice `s[n:]` (drop the first `n` code points). -/
def pyDrop (s : String) (n : Nat) : String := ofChars (s.data.drop n)

/-- Python `p.startswith(q)`. -/
def pyStartsWith (s q : String) : Bool := List.isPrefixOf q.data s.data

/-- Python `sep.join(xs)` where `sep` is the separator string. -/
def pyJoin (sep : String) : List String → String
  | [] => ""
  | [x] => x
  | x :: rest => x ++ sep ++ pyJoin sep rest

/-- `"\n".join`, used by the chunker and the file fallback. -/
def joinN (lines : List String) : String := pyJoin "\x0a" lines

/-- Python `s.split(sep)` for a one-character separator, on char lists.
`split` always returns at least one (possibly empty) group. -/
def splitChars (sep : Char) : List Char → List (List Char)
  | [] => [[]]
  | c :: rest =>
    let r := splitChars sep rest
    if c = sep then [] :: r
    else
      match r with
      | g :: gs => (c :: g) :: gs
      | [] => [[c]]

/-- Python `s.split(sep)` for a one-character separator. -/
def pySplit (s : String) (sep : Char) : List String :=
  (splitChars sep s.data).map ofChars

/-- Python `s.lower()` (ASCII-faithful). -/
def pyLower (s : String) : String := ofChars (s.data.map Char.toLower)

/-- Python `s.strip("/")`: remove leading and trailing slash characters. -/
def stripSlashes (s : String) : String :=
  ofChars (((s.data.dropWhile (· == '/')).reverse.dropWhile (· == '/')).reverse)

/-! ### Constants of `github_tree` (source lines 476-480) -/

def MAX_PATH_LIMIT : Nat := 5000
def MAX_EMBEDS : Nat := 4
def MAX_FIELD_VALUE : Nat := 1024 - 15
def MAX_CONTENT_CHARS : Nat := min 750 MAX_FIELD_VALUE

/-! ### The nested mapping built by `format_tree` (source lines 563-581)

A value in the Python `tree_dict` is either a nested dict or the string
`"..."` (the truncation sentinel).  Dicts are insertion-ordered
association lists with unique keys. -/

inductive TNode where
  | dict : List (String × TNode) → TNode
  | trunc : TNode

/-- Python `value == "..."`. -/
def isTruncB : TNode → Bool
  | .trunc => true
  | .dict _ => false

abbrev Entries := List (String × TNode)

/-- Ordered-dict lookup (`current[part]` / `part in current`). -/
def lookupE : Entries → String → Option TNode
  | [], _ => none
  | (k', v') :: rest, k => if k' = k then some v' else lookupE rest k

/-- Python `part in current`. -/
def containsE (d : Entries) (k : String) : Bool := (lookupE d k).isSome

/-- Python `current[part] = v`: replace the value in place if the key is
present, otherwise append the new binding at the end. -/
def dictSet : Entries → String → TNode → Entries
  | [], k, v => [(k, v)]
  | (k', v') :: rest, k, v =>
    if k' = k then (k', v) :: rest else (k', v') :: dictSet rest k v

/-- The per-path insertion loop of `format_tree` (source lines 565-581):
walk the segments, creating nested dicts, and plant the `"..."` sentinel
for the segment whose index reaches `max_depth`.  Mirrors the source
exactly, including the non-descending behaviour when the current value
is the sentinel. -/
def insertPath (maxDepth : Nat) : Entries → Nat → List String → Entries
  | d, _, [] => d
  | d, i, part :: rest =>
    if maxDepth ≤ i then
      if containsE d part then d else d ++ [(part, .trunc)]
    else
      let d1 := if containsE d part then d else d ++ [(part, .dict [])]
      match lookupE d1 part with
      | some (.dict sub) =>
          if rest.isEmpty then d1
          else dictSet d1 part (.dict (insertPath maxDepth sub (i + 1) rest))
      | some .trunc =>
          if rest.isEmpty then d1 else insertPath maxDepth d1 (i + 1) rest
      | none => d1

/-- The `tree_dict` accumulation over all paths (source lines 564-581). -/
def buildDict (paths_list : List String) (max_depth : Nat) : Entries :=
  paths_list.foldl (fun acc p => insertPath max_depth acc 0 (pySplit p '/')) []

/-! ### Sorting and rendering (`build_lines`, source lines 585-604) -/

/-- `is_dir` of `sort_key` / `is_directory` of the render loop:
`isinstance(value, dict) and value != {}`. -/
def entryIsDir : TNode → Bool
  | .dict e => !e.isEmpty
  | .trunc => false

/-- Python `<=` on strings after `str.lower`, i.e. code-point
lexicographic order on the lowered characters. -/
def charListLe : List Char → List Char → Bool
  | [], _ => true
  | _ :: _, [] => false
  | a :: as, b :: bs =>
    decide (a.toNat < b.toNat) || (decide (a.toNat = b.toNat) && charListLe as bs)

/-- The comparison induced by `sort_key(item) = (not is_dir, key.lower())`:
directories first, ties broken by the lowercased key. -/
def keyLe (a b : String × TNode) : Bool :=
  let da := entryIsDir a.2
  let db := entryIsDir b.2
  (da && !db) || ((da == db) && charListLe (pyLower a.1).data (pyLower b.1).data)

/-- Stable insertion of one entry into a `keyLe`-sorted list. -/
def insEntry (x : String × TNode) : Entries → Entries
  | [] => [x]
  | y :: rest => if keyLe x y then x :: y :: rest else y :: insEntry x rest

/-- `sorted(d.items(), key=sort_key)`: a stable sort by `keyLe`. -/
def sortEntries (l : Entries) : Entries := l.foldr insEntry []

mutual
/-- Depth measure of a node, used to justify the renderer's recursion. -/
def nodeDepth : TNode → Nat
  | .trunc => 0
  | .dict e => 1 + entriesDepth e
/-- Depth measure of an entry list. -/
def entriesDepth : Entries → Nat
  | [] => 0
  | kv :: rest => max (nodeDepth kv.2) (entriesDepth rest)
end

/-- Children of a node (the empty list for the sentinel). -/
def childEntries : TNode → Entries
  | .dict e => e
  | .trunc => []

theorem entriesDepth_cons (kv : String × TNode) (rest : Entries) :
    entriesDepth (kv :: rest) = max (nodeDepth kv.2) (entriesDepth rest) := rfl

theorem insEntry_perm (x : String × TNode) (l : Entries) :
    List.Perm (insEntry x l) (x :: l) := by
  induction l with
  | nil => simp [insEntry]
  | cons y rest ih =>
    simp only [insEntry]
    by_cases h : keyLe x y = true
    · simp [h]
    · rw [if_neg h]
      exact (ih.cons y).trans (List.Perm.swap x y rest)

theorem sortEntries_perm (l : Entries) : List.Perm (sortEntries l) l := by
  induction l with
  | nil => simp [sortEntries]
  | cons x rest ih =>
    simp only [sortEntries, List.foldr_cons]
    exact (insEntry_perm x _).trans (ih.cons x)

theorem entriesDepth_perm {l l' : Entries} (h : List.Perm l l') :
    entriesDepth l = entriesDepth l' := by
  induction h with
  | nil => rfl
  | cons x _ ih => simp [entriesDepth_cons, ih]
  | swap x y l =>
    simp only [entriesDepth_cons]
    rw [← Nat.max_assoc, ← Nat.max_assoc, Nat.max_comm (nodeDepth y.2) (nodeDepth x.2)]
  | trans _ _ ih1 ih2 => exact ih1.trans ih2

theorem entriesDepth_sortEntries (l : Entries) :
    entriesDepth (sortEntries l) = entriesDepth l :=
  entriesDepth_perm (sortEntries_perm l)

theorem renderLexA {v : TNode} (h : entryIsDir v = true) (k : String)
    (rest : Entries) (n m : Nat) :
    Prod.Lex (· < ·) (· < ·)
      (entriesDepth (sortEntries (childEntries v)), n)
      (entriesDepth ((k, v) :: rest), m) := by
  apply Prod.Lex.left
  rw [entriesDepth_sortEntries]
  cases v with
  | trunc => simp [entryIsDir] at h
  | dict e =>
    simp only [childEntries, entriesDepth_cons, nodeDepth]
    omega

theorem renderLexB (kv : String × TNode) (rest : Entries) :
    Prod.Lex (· < ·) (· < ·)
      (entriesDepth rest, rest.length)
      (entriesDepth (kv :: rest), rest.length + 1) := by
  rw [entriesDepth_cons]
  rcases Nat.lt_or_ge (entriesDepth rest) (max (nodeDepth kv.2) (entriesDepth rest)) with hlt | hge
  · exact Prod.Lex.left _ _ hlt
  · have hmax : entriesDepth rest = max (nodeDepth kv.2) (entriesDepth rest) := by omega
    rw [← hmax]
    exact Prod.Lex.right _ (by omega)

/-- The render loop of `build_lines` (source lines 585-604), specialised
to an already-sorted entry list: emit one line per entry
(`prefix + connector + key + suffix`) and recurse into non-empty
directories with an extended continuation glyph. -/
def renderSorted : Entries → String → List String
  | [], _ => []
  | (key, v) :: rest, pre =>
    (pre ++ (if rest.isEmpty then "└── " else "├── ") ++ key
        ++ (if entryIsDir v || isTruncB v then "/" else ""))
      :: ((if h : entryIsDir v then
            renderSorted (sortEntries (childEntries v))
              (pre ++ (if rest.isEmpty then "    " else "│   "))
          else [])
          ++ renderSorted rest pre)
termination_by l _ => (entriesDepth l, l.length)
decreasing_by
  · exact renderLexA h _ _ _ _
  · exact renderLexB _ _

/-- `build_lines(d, prefix)` (source line 591 sorts, then iterates). -/
def buildLines (d : Entries) (pre : String) : List String :=
  renderSorted (sortEntries d) pre

/-- One sibling row of the render loop, parameterised by the renderer
used for directory children; identical in shape to `renderSorted`. -/
def renderRow (childF : TNode → String → List String) : Entries → String → List String
  | [], _ => []
  | (key, v) :: rest, pre =>
    (pre ++ (if rest.isEmpty then "└── " else "├── ") ++ key
        ++ (if entryIsDir v || isTruncB v then "/" else ""))
      :: ((if entryIsDir v then
            childF v (pre ++ (if rest.isEmpty then "    " else "│   "))
          else [])
          ++ renderRow childF rest pre)

/-- Fuel-indexed version of `renderSorted`; it computes by structural
recursion and agrees with `renderSorted` whenever the fuel exceeds the
depth of the entry list (`renderF_eq`). -/
def renderF : Nat → Entries → String → List String
  | 0, _, _ => []
  | fuel + 1, l, pre =>
    renderRow (fun v npre => renderF fuel (sortEntries (childEntries v)) npre) l pre

theorem nodeDepth_le_of_lookup {d : Entries} {k : String} {v : TNode}
    (h : lookupE d k = some v) : nodeDepth v ≤ entriesDepth d := by
  induction d with
  | nil => simp [lookupE] at h
  | cons kv rest ih =>
    rw [entriesDepth_cons]
    simp only [lookupE] at h
    by_cases hk : kv.1 = k
    · rw [if_pos hk] at h
      cases h
      omega
    · rw [if_neg hk] at h
      have := ih h
      omega

theorem entryIsDir_childDepth {v : TNode} (h : entryIsDir v = true) :
    entriesDepth (childEntries v) < nodeDepth v := by
  cases v with
  | trunc => simp [entryIsDir] at h
  | dict e => simp [childEntries, nodeDepth]

theorem renderF_eq (fuel : Nat) :
    ∀ (l : Entries) (pre : String), entriesDepth l < fuel →
      renderF fuel l pre = renderSorted l pre := by
  induction fuel with
  | zero => intro l pre h; omega
  | succ fuel ih =>
    intro l
    induction l with
    | nil => intro pre h; simp [renderF, renderRow, renderSorted]
    | cons kv rest ihRest =>
      intro pre h
      obtain ⟨key, v⟩ := kv
      have h : max (nodeDepth v) (entriesDepth rest) < fuel + 1 := by
        simpa [entriesDepth_cons] using h
      rw [renderSorted]
      simp only [renderF, renderRow]
      congr 1
      congr 1
      · by_cases hdir : entryIsDir v = true
        · rw [if_pos hdir, dif_pos hdir]
          apply ih
          rw [entriesDepth_sortEntries]
          have := entryIsDir_childDepth hdir
          omega
        · rw [if_neg hdir, dif_neg hdir]
      · have hs : renderF (fuel + 1) rest pre = renderSorted rest pre :=
          ihRest pre (by omega)
        simpa [renderF] using hs

theorem entriesDepth_append (d1 d2 : Entries) :
    entriesDepth (d1 ++ d2) = max (entriesDepth d1) (entriesDepth d2) := by
  induction d1 with
  | nil => simp [entriesDepth]
  | cons kv rest ih => simp [entriesDepth_cons, ih, Nat.max_assoc]

theorem entriesDepth_dictSet (d : Entries) (k : String) (v : TNode) :
    entriesDepth (dictSet d k v) ≤ max (entriesDepth d) (nodeDepth v) := by
  induction d with
  | nil => simp [dictSet, entriesDepth_cons, entriesDepth]
  | cons kv rest ih =>
    simp only [dictSet]
    by_cases hk : kv.1 = k
    · rw [if_pos hk]
      simp only [entriesDepth_cons]
      omega
    · rw [if_neg hk]
      simp only [entriesDepth_cons]
      omega

/-- Inserting one path never deepens the dict beyond the existing depth
or the remaining depth budget `maxDepth - i`. -/
theorem entriesDepth_insertPath (maxDepth : Nat) :
    ∀ (parts : List String) (d : Entries) (i : Nat),
      entriesDepth (insertPath maxDepth d i parts)
        ≤ max (entriesDepth d) (maxDepth - i) := by
  intro parts
  induction parts with
  | nil => intro d i; simp [insertPath]
  | cons part rest ih =>
    intro d i
    rw [insertPath]
    by_cases hcap : maxDepth ≤ i
    · rw [if_pos hcap]
      by_cases hc : containsE d part = true
      · rw [if_pos hc]; omega
      · rw [if_neg hc]
        rw [entriesDepth_append]
        simp [entriesDepth_cons, entriesDepth, nodeDepth]
    · rw [if_neg hcap]
      have hbudget : 1 ≤ maxDepth - i := by omega
      have hd1 : entriesDepth
          (if containsE d part = true then d else d ++ [(part, TNode.dict [])])
          ≤ max (entriesDepth d) 1 := by
        by_cases hc : containsE d part = true
        · rw [if_pos hc]; omega
        · rw [if_neg hc]
          rw [entriesDepth_append]
          simp [entriesDepth_cons, entriesDepth, nodeDepth]
      set d1 := if containsE d part = true then d else d ++ [(part, TNode.dict [])] with hd1def
      cases hl : lookupE d1 part with
      | none => simp only [hl]; omega
      | some v =>
        cases v with
        | trunc =>
          simp only [hl]
          by_cases hre : rest.isEmpty
          · rw [if_pos hre]; omega
          · rw [if_neg hre]
            have := ih d1 (i + 1)
            omega
        | dict sub =>
          simp only [hl]
          by_cases hre : rest.isEmpty
          · rw [if_pos hre]; omega
          · rw [if_neg hre]
            have hsub : 1 + entriesDepth sub ≤ entriesDepth d1 := by
              have := nodeDepth_le_of_lookup hl
              simpa [nodeDepth] using this
            have hins := ih sub (i + 1)
            have hset := entriesDepth_dictSet d1 part
              (TNode.dict (insertPath maxDepth sub (i + 1) rest))
            simp only [nodeDepth] at hset
            omega

/-- The dict built by `format_tree` from any path list has depth at most
`max_depth`. -/
theorem entriesDepth_buildDict (paths_list : List String) (max_depth : Nat) :
    entriesDepth (buildDict paths_list max_depth) ≤ max_depth := by
  have main : ∀ (ps : List String) (d : Entries), entriesDepth d ≤ max_depth →
      entriesDepth (ps.foldl
        (fun acc p => insertPath max_depth acc 0 (pySplit p '/')) d) ≤ max_depth := by
    intro ps
    induction ps with
    | nil => intro d hd; simpa using hd
    | cons p rest ih =>
      intro d hd
      simp only [List.foldl_cons]
      apply ih
      have := entriesDepth_insertPath max_depth (pySplit p '/') d 0
      omega
  exact main paths_list [] (by simp [entriesDepth])

/-- `build_lines` on a dict built with depth limit `max_depth` is computed
by the fuelled renderer with fuel `max_depth + 1`. -/
theorem buildLines_fuel (paths_list : List String) (max_depth : Nat) (pre : String) :
    buildLines (buildDict paths_list max_depth) pre
      = renderF (max_depth + 1) (sortEntries (buildDict paths_list max_depth)) pre := by
  rw [buildLines]
  refine (renderF_eq _ _ _ ?_).symm
  rw [entriesDepth_sortEntries]
  have := entriesDepth_buildDict paths_list max_depth
  omega

/-- The synthetic root line (source line 606). -/
def rootLine (owner name branch subpath : String) : String :=
  if subpath = "" then "📦 " ++ owner ++ "/" ++ name ++ "/tree/" ++ branch
  else "📦 " ++ owner ++ "/" ++ name ++ "/tree/" ++ branch ++ "/" ++ subpath

/-- `format_tree(paths_list, max_depth)` (source lines 563-609): build the
nested dict, then emit the root line followed by the rendered entries. -/
def format_tree (owner name branch subpath : String)
    (paths_list : List String) (max_depth : Nat) : List String :=
  rootLine owner name branch subpath :: buildLines (buildDict paths_list max_depth) ""

/-! ### Chunking (source lines 613-630) -/

/-- Per-line clipping (source lines 618-619): a line longer than
`MAX_CONTENT_CHARS` is cut to `MAX_CONTENT_CHARS - 3` code points and
given an ellipsis marker. -/
def clipLine (l : String) : String :=
  if MAX_CONTENT_CHARS < pyLen l then pyTake l (MAX_CONTENT_CHARS - 3) ++ "..." else l

/-- The greedy accumulation loop (source lines 617-627): state is the
finished chunks, the current chunk's lines, and the running character
count (`current_len`, each line counted as its length plus one for the
separator). -/
def chunkLoop : List String → List String → Nat → List String → List String
  | chunks, cur, _, [] => if cur.isEmpty then chunks else chunks ++ [joinN cur]
  | chunks, cur, curLen, l :: rest =>
    let line := clipLine l
    if MAX_CONTENT_CHARS < curLen + pyLen line + 1 then
      chunkLoop (chunks ++ [joinN cur]) [line] (pyLen line + 1) rest
    else
      chunkLoop chunks (cur ++ [line]) (curLen + pyLen line + 1) rest

/-- The whole chunking pass over `tree_lines` (source lines 613-630),
including the final flush of a non-empty current chunk. -/
def makeChunks (tree_lines : List String) : List String :=
  chunkLoop [] [] 0 tree_lines

/-- The truncation notice appended when the embed cap is exceeded
(source line 634). -/
def TRUNC_MSG : String := "\x0a\x0a… (Output truncated by embed limit)"

/-- The embed-limit step (source lines 632-639): keep the first
`MAX_EMBEDS` chunks and append the truncation notice to the last kept
chunk, trimming it when the notice would not fit.  Python's
`max(0, MAX_CONTENT_CHARS - len(trunc_msg) - 3)` equals the Lean
truncated subtraction. -/
def applyEmbedLimit (chunks : List String) : List String :=
  if MAX_EMBEDS < chunks.length then
    let kept := chunks.take MAX_EMBEDS
    let lst := kept.getLastD ""
    let newLast :=
      if MAX_CONTENT_CHARS < pyLen lst + pyLen TRUNC_MSG then
        pyTake lst (MAX_CONTENT_CHARS - pyLen TRUNC_MSG - 3) ++ "..." ++ TRUNC_MSG
      else lst ++ TRUNC_MSG
    kept.dropLast ++ [newLast]
  else chunks

/-! ### Facts about strings, joining, and the chunking loop -/

theorem strData_append (a b : String) : (a ++ b).data = a.data ++ b.data := by
  cases a; cases b; rfl

theorem pyLen_append (a b : String) : pyLen (a ++ b) = pyLen a + pyLen b := by
  simp [pyLen, strData_append]

theorem pyLen_pyTake (s : String) (n : Nat) : pyLen (pyTake s n) = min n (pyLen s) := by
  simp [pyLen, pyTake, ofChars]

theorem joinN_nil : joinN [] = "" := rfl

theorem joinN_single (x : String) : joinN [x] = x := rfl

theorem joinN_cons (x : String) {l : List String} (h : l ≠ []) :
    joinN (x :: l) = x ++ "\x0a" ++ joinN l := by
  cases l with
  | nil => exact absurd rfl h
  | cons y rest => rfl

/-- The running total tracked by `current_len`: each line counts its
length plus one separator. -/
def sumLen (l : List String) : Nat := l.foldr (fun s acc => pyLen s + 1 + acc) 0

theorem sumLen_nil : sumLen [] = 0 := rfl

theorem str_append_assoc (a b c : String) : a ++ b ++ c = a ++ (b ++ c) :=
  String.append_assoc a b c

theorem sumLen_append_single (l : List String) (x : String) :
    sumLen (l ++ [x]) = sumLen l + (pyLen x + 1) := by
  induction l with
  | nil => simp [sumLen]
  | cons y rest ih =>
    simp only [List.cons_append, sumLen, List.foldr_cons] at *
    omega

theorem pyLen_joinN {l : List String} (h : l ≠ []) :
    pyLen (joinN l) + 1 = sumLen l := by
  induction l with
  | nil => exact absurd rfl h
  | cons x rest ih =>
    cases rest with
    | nil => simp [joinN_single, sumLen, pyLen]
    | cons y r2 =>
      rw [joinN_cons x (by simp)]
      have := ih (by simp)
      simp only [sumLen, List.foldr_cons] at *
      simp [pyLen_append] at *
      have hone : pyLen "\x0a" = 1 := rfl
      omega

theorem joinN_append {l1 l2 : List String} (h1 : l1 ≠ []) (h2 : l2 ≠ []) :
    joinN (l1 ++ l2) = joinN l1 ++ "\x0a" ++ joinN l2 := by
  induction l1 with
  | nil => exact absurd rfl h1
  | cons x rest ih =>
    cases rest with
    | nil =>
      simp only [List.singleton_append, joinN_single]
      exact joinN_cons x h2
    | cons y r2 =>
      rw [List.cons_append, joinN_cons x (by simp), joinN_cons x (by simp),
        ih (by simp)]
      simp [str_append_assoc]

theorem flatten_ne_nil {groups : List (List String)} {g : List String}
    (hg : g ∈ groups) (hne : g ≠ []) : groups.flatten ≠ [] := by
  intro hflat
  exact hne (List.flatten_eq_nil_iff.mp hflat g hg)

/-- Joining the per-group joins equals joining the flattened lines, as
long as no group is empty. -/
theorem joinN_flatten : ∀ (groups : List (List String)),
    (∀ g ∈ groups, g ≠ []) → joinN (groups.map joinN) = joinN groups.flatten := by
  intro groups
  induction groups with
  | nil => intro _; rfl
  | cons g rest ih =>
    intro hne
    have hg : g ≠ [] := hne g (by simp)
    cases hrest : rest with
    | nil => simp [joinN_single]
    | cons r r2 =>
      rw [← hrest]
      have hrne : rest ≠ [] := by rw [hrest]; simp
      have hmapne : rest.map joinN ≠ [] := by
        simp [hrest]
      have hflatne : rest.flatten ≠ [] := by
        refine flatten_ne_nil (g := r) ?_ ?_
        · rw [hrest]; simp
        · exact hne r (by rw [hrest]; simp)
      rw [List.map_cons, joinN_cons _ hmapne, List.flatten_cons,
        joinN_append hg hflatne, ih (fun x hx => hne x (by simp [hx]))]

theorem pyLen_clipLine (l : String) : pyLen (clipLine l) ≤ MAX_CONTENT_CHARS := by
  rw [clipLine]
  by_cases h : MAX_CONTENT_CHARS < pyLen l
  · rw [if_pos h]
    rw [pyLen_append, pyLen_pyTake]
    have : pyLen "..." = 3 := rfl
    rw [this]
    have : MAX_CONTENT_CHARS = 750 := rfl
    omega
  · rw [if_neg h]
    omega

theorem clipLine_of_short {l : String} (h : pyLen l < MAX_CONTENT_CHARS) :
    clipLine l = l := by
  rw [clipLine, if_neg (by omega)]

/-- Full specification of the greedy chunking loop: it appends to
`chunks` the joins of a partition of `cur ++ map clipLine rest` into
groups, each join fitting in `MAX_CONTENT_CHARS`; and when every pending
line is strictly shorter than the cap (and the accumulator state is
reachable), no group is empty. -/
theorem chunkLoop_spec : ∀ (rest chunks cur : List String) (curLen : Nat),
    curLen = sumLen cur →
    (cur ≠ [] → curLen ≤ MAX_CONTENT_CHARS + 1) →
    ∃ groups : List (List String),
      chunkLoop chunks cur curLen rest = chunks ++ groups.map joinN
      ∧ groups.flatten = cur ++ rest.map clipLine
      ∧ (∀ g ∈ groups, pyLen (joinN g) ≤ MAX_CONTENT_CHARS)
      ∧ ((∀ l ∈ rest, pyLen l < MAX_CONTENT_CHARS) → (cur ≠ [] ∨ curLen = 0) →
          ∀ g ∈ groups, g ≠ []) := by
  intro rest
  induction rest with
  | nil =>
    intro chunks cur curLen hsum hbound
    by_cases hcur : cur = []
    · refine ⟨[], ?_, ?_, ?_, ?_⟩
      · simp [chunkLoop, hcur]
      · simp [hcur]
      · simp
      · simp
    · refine ⟨[cur], ?_, ?_, ?_, ?_⟩
      · simp [chunkLoop, hcur]
      · simp
      · intro g hgmem
        simp at hgmem
        rw [hgmem]
        have h1 := pyLen_joinN hcur
        have h2 := hbound hcur
        omega
      · intro _ _ g hgmem
        simp at hgmem
        rw [hgmem]
        exact hcur
  | cons l rest ih =>
    intro chunks cur curLen hsum hbound
    rw [chunkLoop]
    by_cases hflush : MAX_CONTENT_CHARS < curLen + pyLen (clipLine l) + 1
    · rw [if_pos hflush]
      obtain ⟨groups, heq, hflat, hlenb, hne⟩ :=
        ih (chunks ++ [joinN cur]) [clipLine l] (pyLen (clipLine l) + 1)
          (by simp [sumLen])
          (by intro _; have := pyLen_clipLine l; omega)
      refine ⟨cur :: groups, ?_, ?_, ?_, ?_⟩
      · rw [heq]
        simp
      · simp [hflat]
      · intro g hgmem
        rcases List.mem_cons.mp hgmem with hghead | hgtail
        · rw [hghead]
          by_cases hcur : cur = []
          · rw [hcur]
            simp [joinN_nil, pyLen]
          · have h1 := pyLen_joinN hcur
            have h2 := hbound hcur
            omega
        · exact hlenb g hgtail
      · intro hshort hreach g hgmem
        rcases List.mem_cons.mp hgmem with hghead | hgtail
        · rw [hghead]
          rcases hreach with hcur | hzero
          · exact hcur
          · exfalso
            have hlshort : pyLen l < MAX_CONTENT_CHARS := hshort l (by simp)
            rw [clipLine_of_short hlshort] at hflush
            omega
        · exact hne (fun x hx => hshort x (by simp [hx])) (Or.inl (by simp)) g hgtail
    · rw [if_neg hflush]
      obtain ⟨groups, heq, hflat, hlenb, hne⟩ :=
        ih chunks (cur ++ [clipLine l]) (curLen + pyLen (clipLine l) + 1)
          (by rw [hsum, sumLen_append_single]; omega)
          (by intro _; omega)
      refine ⟨groups, heq, ?_, hlenb, ?_⟩
      · rw [hflat]
        simp
      · intro hshort _ g hgmem
        exact hne (fun x hx => hshort x (by simp [hx])) (Or.inl (by simp)) g hgmem

/-- The chunker produces the joins of a partition of the clipped lines
into non-splitting groups, each within the character cap. -/
theorem makeChunks_spec (tree_lines : List String) :
    ∃ groups : List (List String),
      makeChunks tree_lines = groups.map joinN
      ∧ groups.flatten = tree_lines.map clipLine
      ∧ (∀ g ∈ groups, pyLen (joinN g) ≤ MAX_CONTENT_CHARS)
      ∧ ((∀ l ∈ tree_lines, pyLen l < MAX_CONTENT_CHARS) → ∀ g ∈ groups, g ≠ []) := by
  obtain ⟨groups, heq, hflat, hlenb, hne⟩ :=
    chunkLoop_spec tree_lines [] [] 0 (by simp [sumLen]) (by intro h; exact absurd rfl h)
  refine ⟨groups, ?_, by simpa using hflat, hlenb, ?_⟩
  · rw [makeChunks, heq]
    simp
  · intro hshort
    exact hne hshort (Or.inr rfl)

/-! ### The sibling order is a total preorder and `sortEntries` sorts -/

theorem charListLe_total : ∀ x y : List Char,
    charListLe x y = true ∨ charListLe y x = true := by
  intro x
  induction x with
  | nil => intro y; left; rfl
  | cons a as ih =>
    intro y
    cases y with
    | nil => right; rfl
    | cons b bs =>
      simp only [charListLe, Bool.or_eq_true, Bool.and_eq_true, decide_eq_true_eq]
      rcases Nat.lt_trichotomy a.toNat b.toNat with h | h | h
      · left; left; exact h
      · rcases ih bs with hr | hr
        · left; right; exact ⟨h, hr⟩
        · right; right; exact ⟨h.symm, hr⟩
      · right; left; exact h

theorem charListLe_trans : ∀ x y z : List Char,
    charListLe x y = true → charListLe y z = true → charListLe x z = true := by
  intro x
  induction x with
  | nil => intro y z _ _; rfl
  | cons a as ih =>
    intro y z h1 h2
    cases y with
    | nil => simp [charListLe] at h1
    | cons b bs =>
      cases z with
      | nil => simp [charListLe] at h2
      | cons c cs =>
        simp only [charListLe, Bool.or_eq_true, Bool.and_eq_true,
          decide_eq_true_eq] at h1 h2 ⊢
        rcases h1 with h1a | ⟨h1e, h1r⟩ <;> rcases h2 with h2a | ⟨h2e, h2r⟩
        · left; omega
        · left; omega
        · left; omega
        · right; exact ⟨by omega, ih bs cs h1r h2r⟩

theorem keyLe_total : ∀ x y : String × TNode, keyLe x y = true ∨ keyLe y x = true := by
  intro x y
  cases hdx : entryIsDir x.2 <;> cases hdy : entryIsDir y.2 <;>
    simp only [keyLe, hdx, hdy, Bool.and_eq_true, Bool.or_eq_true, Bool.not_false,
      Bool.not_true, Bool.and_false, Bool.and_true, Bool.false_and, Bool.true_and,
      Bool.or_false, Bool.false_or, beq_self_eq_true, Bool.true_or] <;>
    first
      | exact charListLe_total _ _
      | simp

theorem keyLe_trans : ∀ x y z : String × TNode,
    keyLe x y = true → keyLe y z = true → keyLe x z = true := by
  intro x y z h1 h2
  cases hdx : entryIsDir x.2 <;> cases hdy : entryIsDir y.2 <;>
    cases hdz : entryIsDir z.2 <;>
    simp only [keyLe, hdx, hdy, hdz, Bool.and_eq_true, Bool.or_eq_true,
      Bool.not_false, Bool.not_true, Bool.and_false, Bool.and_true, Bool.false_and,
      Bool.true_and, Bool.or_false, Bool.false_or, beq_self_eq_true, Bool.true_or,
      beq_iff_eq] at h1 h2 ⊢ <;>
    first
      | rfl
      | exact charListLe_trans _ _ _ h1 h2
      | exact h1
      | exact h2
      | simp_all

theorem pairwise_insEntry {x : String × TNode} {l : Entries}
    (hl : l.Pairwise (fun a b => keyLe a b = true)) :
    (insEntry x l).Pairwise (fun a b => keyLe a b = true) := by
  induction l with
  | nil => simp [insEntry]
  | cons y rest ih =>
    rw [List.pairwise_cons] at hl
    obtain ⟨hy, hrest⟩ := hl
    simp only [insEntry]
    by_cases h : keyLe x y = true
    · rw [if_pos h]
      refine List.Pairwise.cons ?_ (List.Pairwise.cons hy hrest)
      intro b hb
      rcases List.mem_cons.mp hb with hb | hb
      · rw [hb]; exact h
      · exact keyLe_trans x y b h (hy b hb)
    · rw [if_neg h]
      have hyx : keyLe y x = true := by
        rcases keyLe_total x y with ht | ht
        · exact absurd ht h
        · exact ht
      refine List.Pairwise.cons ?_ (ih hrest)
      intro b hb
      have hmem := (insEntry_perm x rest).mem_iff.mp hb
      rcases List.mem_cons.mp hmem with hb' | hb'
      · rw [hb']; exact hyx
      · exact hy b hb'

/-- Output of the model of `sorted(d.items(), key=sort_key)` is sorted by
the sibling order. -/
theorem sorted_sortEntries (l : Entries) :
    (sortEntries l).Pairwise (fun a b => keyLe a b = true) := by
  induction l with
  | nil => simp [sortEntries]
  | cons x rest ih =>
    simp only [sortEntries, List.foldr_cons]
    exact pairwise_insEntry ih

/-! ### Outcome of the `github_tree` command after the tree fetch -/

/-- The user-visible outcome of `github_tree` once `all_paths` has been
extracted from the API response (source lines 535-651). -/
inductive TreeOutcome where
  | emptyRepo
  | tooLarge (count : Nat)
  | subpathNotFound
  | emptyPaths
  | asFile (content : String)
  | asEmbeds (chunks : List String)
deriving DecidableEq

/-- The file-versus-embeds decision (source lines 641-651): if any chunk
plus the fixed 10-character formatting overhead exceeds
`MAX_FIELD_VALUE`, send the full newline-joined tree as a file. -/
def decideDelivery (tree_lines chunks : List String) : TreeOutcome :=
  if chunks.any (fun c => MAX_FIELD_VALUE < pyLen c + 10) then .asFile (joinN tree_lines)
  else .asEmbeds chunks

/-- Subpath filtering (source lines 544-556): keep paths equal to the
subpath or below it; if any strict descendant exists, strip the leading
`subpath + "/"` from the descendants, otherwise the result is the
single file `[subpath]`.  `none` models the "Subpath not found" reply. -/
def computePaths (all_paths : List String) (subpath : String) : Option (List String) :=
  if subpath = "" then some all_paths
  else
    let filtered := all_paths.filter
      (fun p => p == subpath || pyStartsWith p (subpath ++ "/"))
    if filtered.isEmpty then none
    else if filtered.any (fun p => pyStartsWith p (subpath ++ "/")) then
      some ((filtered.filter (fun p => pyStartsWith p (subpath ++ "/"))).map
        (fun p => pyDrop p (pyLen subpath + 1)))
    else some [subpath]

/-- `github_tree` from the point where `all_paths` is known
(source lines 535-651): the emptiness check, the `MAX_PATH_LIMIT`
ceiling, subpath filtering, tree building, chunking, the embed cap, and
the delivery decision, in source order. -/
def github_tree_afterFetch (owner name branch subpath : String)
    (all_paths : List String) (max_depth : Nat) : TreeOutcome :=
  if all_paths.isEmpty then .emptyRepo
  else if MAX_PATH_LIMIT < all_paths.length then .tooLarge all_paths.length
  else
    match computePaths all_paths subpath with
    | none => .subpathNotFound
    | some paths =>
      if paths.isEmpty then .emptyPaths
      else
        let tree_lines := format_tree owner name branch subpath paths max_depth
        decideDelivery tree_lines (applyEmbedLimit (makeChunks tree_lines))

/-! ### Input resolving (source lines 488-502) -/

/-- Modelled from the behaviour of the external collaborator
`urllib.parse.urlparse(...).path` (the Python standard library, not part
of this repository): the path component of a URL is what follows the
`scheme://authority` part, up to any query (`?`) or fragment (`#`); if
the string has no `://`, it is taken as a bare path. -/
def urlPath (s : String) : String :=
  let cs := s.data.takeWhile (fun c => c ≠ '?' ∧ c ≠ '#')
  match afterSchemeSep cs with
  | some rest => ofChars (rest.dropWhile (· ≠ '/'))
  | none => ofChars cs
where
  /-- Drop everything through the first `://`. -/
  afterSchemeSep : List Char → Option (List Char)
    | ':' :: '/' :: '/' :: rest => some rest
    | _ :: rest => afterSchemeSep rest
    | [] => none

/-- The repository-reference parser of `github_tree`
(source lines 488-502): result is `(owner, name, branch?, subpath)`,
`none` models the two "Invalid ..." error replies. -/
def parseRepoInput (repo : String) :
    Option (String × String × Option String × String) :=
  if pyStartsWith repo "http" then
    match pySplit (stripSlashes (urlPath repo)) '/' with
    | owner :: name :: "tree" :: branch :: restSegs =>
        some (owner, name, some branch, pyJoin "/" restSegs)
    | owner :: name :: _ => some (owner, name, none, "")
    | _ => none
  else if repo.data.contains '/' then
    match pySplit repo '/' with
    | owner :: name :: _ => some (owner, name, none, "")
    | _ => none
  else none

/-! ### `github_request` (src/src/utils/github_utils.py, lines 49-91) -/

/-- An HTTP response as `github_request` observes it: the status code,
the optional `X-RateLimit-Remaining` header, and the body. -/
structure HttpResponse where
  status : Nat
  rateLimitRemaining : Option String
  body : String
deriving DecidableEq

/-- What the underlying GET attempt produced: a response, or one of the
exception paths (`asyncio.TimeoutError` or any other exception). -/
inductive FetchOutcome where
  | ok (resp : HttpResponse)
  | timeoutErr
  | netErr
deriving DecidableEq

/-- The four results of `github_request`: parsed body, `"not_found"`,
`"rate_limited"`, or `None`. -/
inductive ReqResult where
  | json (body : String)
  | notFound
  | rateLimited
  | failure
deriving DecidableEq

/-- `github_request(bot, url)` (source lines 49-91): `None` when the
session is unavailable or the GET raises; otherwise `"rate_limited"` on
a 403 whose `X-RateLimit-Remaining` header (defaulted to `'0'` when
absent) is `'0'`, the body on 200, `"not_found"` on 404, and `None` for
every other status. -/
def github_request (sessionAvailable : Bool) (fetch : FetchOutcome) : ReqResult :=
  if !sessionAvailable then .failure
  else
    match fetch with
    | .timeoutErr => .failure
    | .netErr => .failure
    | .ok resp =>
      if resp.status = 403 ∧ resp.rateLimitRemaining.getD "0" = "0" then .rateLimited
      else if resp.status = 200 then .json resp.body
      else if resp.status = 404 then .notFound
      else .failure

/-! ### Claims -/

/-- C2: At every level of the rendered tree, sibling entries are emitted
sorted by the key `(isDirectory ? 0 : 1, lowercase(name))` — all
directories before all files, ties broken case-insensitively; for the
input path list `["b/file", "A/", "a.txt"]`, directory `A` is rendered
first, then directory `b`, then file `a.txt`. -/
theorem claim_C2_sibling_order :
    (∀ e : Entries, (sortEntries e).Pairwise (fun a b => keyLe a b = true))
    ∧ format_tree "octo" "repo" "main" "" ["b/file", "A/", "a.txt"] 3
        = ["📦 octo/repo/tree/main", "├── A/", "│   └── ", "├── b/",
           "│   └── file", "└── a.txt"] := by
  constructor
  · exact fun e => sorted_sortEntries e
  · rw [format_tree, buildLines_fuel]
    decide

set_option maxRecDepth 40000 in
/-- C3 counterexample: for a single rendered line of 751 characters the
chunk cap is not exceeded, yet rejoining the emitted chunks does not
reproduce the Tree Builder's direct output (the line is clipped and an
empty leading chunk is produced). -/
theorem claim_C3_counterexample :
    (makeChunks [ofChars (List.replicate 751 'a')]).length ≤ MAX_EMBEDS
    ∧ joinN (applyEmbedLimit (makeChunks [ofChars (List.replicate 751 'a')]))
        ≠ joinN [ofChars (List.replicate 751 'a')] := by
  constructor
  · decide
  · decide

/-- C3 (amended): for every list of rendered lines in which each line is
strictly shorter than `maxContentChars`: whenever the chunk cap is not
exceeded, rejoining the paginator's emitted chunks with the line
separator reproduces exactly the newline join of the input lines; and
when the cap is exceeded, the emitted chunks are the first `MAX_EMBEDS`
chunks with the single truncation-notice modification applied to the
last retained chunk (the notice appended, after trimming that chunk
when the notice would not fit) and no other deviation. -/
theorem claim_C3_rejoin_lossless (lines : List String)
    (hshort : ∀ l ∈ lines, pyLen l < MAX_CONTENT_CHARS) :
    ((makeChunks lines).length ≤ MAX_EMBEDS →
      joinN (applyEmbedLimit (makeChunks lines)) = joinN lines)
    ∧ (MAX_EMBEDS < (makeChunks lines).length →
      ∃ lst : String,
        ((makeChunks lines).take MAX_EMBEDS).getLast? = some lst
        ∧ (applyEmbedLimit (makeChunks lines)
              = ((makeChunks lines).take MAX_EMBEDS).dropLast ++ [lst ++ TRUNC_MSG]
          ∨ applyEmbedLimit (makeChunks lines)
              = ((makeChunks lines).take MAX_EMBEDS).dropLast
                  ++ [pyTake lst (MAX_CONTENT_CHARS - pyLen TRUNC_MSG - 3)
                      ++ "..." ++ TRUNC_MSG])) := by
  constructor
  · intro hcap
    have hid : applyEmbedLimit (makeChunks lines) = makeChunks lines := by
      rw [applyEmbedLimit, if_neg (by omega)]
    rw [hid]
    obtain ⟨groups, heq, hflat, _, hne⟩ := makeChunks_spec lines
    rw [heq, joinN_flatten groups (hne hshort), hflat]
    have hmap : lines.map clipLine = lines.map id :=
      List.map_congr_left (fun a ha => clipLine_of_short (hshort a ha))
    rw [hmap, List.map_id]
  · intro hgt
    have hkne : (makeChunks lines).take MAX_EMBEDS ≠ [] := by
      have hlen : ((makeChunks lines).take MAX_EMBEDS).length = MAX_EMBEDS := by
        rw [List.length_take]
        have h4 : MAX_EMBEDS = 4 := rfl
        omega
      intro hnil
      rw [hnil] at hlen
      simp [MAX_EMBEDS] at hlen
    cases hlast : ((makeChunks lines).take MAX_EMBEDS).getLast? with
    | none => exact absurd (List.getLast?_eq_none_iff.mp hlast) hkne
    | some lst =>
      have hgd : ((makeChunks lines).take MAX_EMBEDS).getLastD "" = lst := by
        rw [List.getLastD_eq_getLast?, hlast]
        rfl
      refine ⟨lst, rfl, ?_⟩
      rw [applyEmbedLimit, if_pos hgt]
      simp only [hgd]
      by_cases hfit : MAX_CONTENT_CHARS < pyLen lst + pyLen TRUNC_MSG
      · right
        rw [if_pos hfit]
      · left
        rw [if_neg hfit]

set_option maxRecDepth 40000 in
theorem claim_C3_witness :
    joinN (applyEmbedLimit (makeChunks ["alpha", "beta"])) = joinN ["alpha", "beta"]
    ∧ ∃ lst : String,
        ((makeChunks (List.replicate 5 (ofChars (List.replicate 400 'a')))).take
            MAX_EMBEDS).getLast? = some lst
        ∧ (applyEmbedLimit (makeChunks (List.replicate 5 (ofChars (List.replicate 400 'a'))))
              = ((makeChunks (List.replicate 5 (ofChars (List.replicate 400 'a')))).take
                  MAX_EMBEDS).dropLast ++ [lst ++ TRUNC_MSG]
          ∨ applyEmbedLimit (makeChunks (List.replicate 5 (ofChars (List.replicate 400 'a'))))
              = ((makeChunks (List.replicate 5 (ofChars (List.replicate 400 'a')))).take
                  MAX_EMBEDS).dropLast
                  ++ [pyTake lst (MAX_CONTENT_CHARS - pyLen TRUNC_MSG - 3)
                      ++ "..." ++ TRUNC_MSG]) :=
  ⟨(claim_C3_rejoin_lossless ["alpha", "beta"] (by decide)).1 (by decide),
   (claim_C3_rejoin_lossless (List.replicate 5 (ofChars (List.replicate 400 'a')))
      (by decide)).2 (by decide)⟩

/-- Every chunk of `applyEmbedLimit` stays within the character cap when
the input chunks do. -/
theorem applyEmbedLimit_len {cs : List String}
    (h : ∀ c ∈ cs, pyLen c ≤ MAX_CONTENT_CHARS) :
    ∀ c ∈ applyEmbedLimit cs, pyLen c ≤ MAX_CONTENT_CHARS := by
  intro c hc
  rw [applyEmbedLimit] at hc
  by_cases hn : MAX_EMBEDS < cs.length
  · rw [if_pos hn] at hc
    simp only [] at hc
    rcases List.mem_append.mp hc with h1 | h2
    · exact h c (List.take_subset _ _ (List.dropLast_subset _ h1))
    · have hceq := List.mem_singleton.mp h2
      have hT : pyLen TRUNC_MSG = 37 := rfl
      have hM : MAX_CONTENT_CHARS = 750 := rfl
      by_cases hfit : MAX_CONTENT_CHARS
          < pyLen ((cs.take MAX_EMBEDS).getLastD "") + pyLen TRUNC_MSG
      · rw [if_pos hfit] at hceq
        rw [hceq, pyLen_append, pyLen_append, pyLen_pyTake]
        have h3 : pyLen "..." = 3 := rfl
        rw [h3, hT, hM]
        omega
      · rw [if_neg hfit] at hceq
        rw [hceq, pyLen_append]
        omega
  · rw [if_neg hn] at hc
    exact h c hc

/-- C4: Every chunk produced by the paginator (both before and after the
embed-count truncation step) has length at most `maxContentChars`; the
chunk sequence is the join of a partition of the (individually clipped)
input lines, so a chunk boundary never splits a line and no line is
dropped before the truncation-notice policy. -/
theorem claim_C4_chunk_invariants (lines : List String) :
    (∀ c ∈ makeChunks lines, pyLen c ≤ MAX_CONTENT_CHARS)
    ∧ (∀ c ∈ applyEmbedLimit (makeChunks lines), pyLen c ≤ MAX_CONTENT_CHARS)
    ∧ ∃ groups : List (List String),
        groups.flatten = lines.map clipLine
        ∧ makeChunks lines = groups.map joinN := by
  obtain ⟨groups, heq, hflat, hlenb, _⟩ := makeChunks_spec lines
  have hall : ∀ c ∈ makeChunks lines, pyLen c ≤ MAX_CONTENT_CHARS := by
    intro c hc
    rw [heq] at hc
    obtain ⟨g, hg, hgc⟩ := List.mem_map.mp hc
    rw [← hgc]
    exact hlenb g hg
  exact ⟨hall, applyEmbedLimit_len hall, groups, hflat, heq⟩

/-- C5: if any chunk plus the fixed 10-character formatting overhead
exceeds `maxFieldValue`, the delivery decision abandons chunked inline
delivery and sends the complete tree content as a single file, taking
priority over the chunk list — even when the chunk count is within
`maxChunks`. -/
theorem claim_C5_field_overflow_forces_file (tree_lines chunks : List String)
    (hbig : ∃ c ∈ chunks, MAX_FIELD_VALUE < pyLen c + 10)
    (hcount : chunks.length ≤ MAX_EMBEDS) :
    decideDelivery tree_lines chunks = TreeOutcome.asFile (joinN tree_lines)
    ∧ ∀ cs, decideDelivery tree_lines chunks ≠ TreeOutcome.asEmbeds cs := by
  have hany : chunks.any (fun c => MAX_FIELD_VALUE < pyLen c + 10) = true := by
    obtain ⟨c, hcmem, hlen⟩ := hbig
    exact List.any_eq_true.mpr ⟨c, hcmem, by simpa using hlen⟩
  have h0 : decideDelivery tree_lines chunks = TreeOutcome.asFile (joinN tree_lines) := by
    rw [decideDelivery, if_pos hany]
  exact ⟨h0, fun cs => by rw [h0]; simp⟩

set_option maxRecDepth 40000 in
theorem claim_C5_witness :
    decideDelivery ["t"] [ofChars (List.replicate 1000 'a')]
      = TreeOutcome.asFile (joinN ["t"]) :=
  (claim_C5_field_overflow_forces_file ["t"] [ofChars (List.replicate 1000 'a')]
    (by decide) (by decide)).1

/-- C8: whenever the fetched tree listing has more than `MAX_PATH_LIMIT`
paths, `github_tree` reports the too-large error with the full count and
produces neither an embed chunk list nor a file (so the Tree Builder's
output is never delivered). -/
theorem claim_C8_too_large (owner name branch subpath : String)
    (all_paths : List String) (max_depth : Nat)
    (h : MAX_PATH_LIMIT < all_paths.length) :
    github_tree_afterFetch owner name branch subpath all_paths max_depth
      = TreeOutcome.tooLarge all_paths.length
    ∧ (∀ cs, github_tree_afterFetch owner name branch subpath all_paths max_depth
        ≠ TreeOutcome.asEmbeds cs)
    ∧ (∀ s, github_tree_afterFetch owner name branch subpath all_paths max_depth
        ≠ TreeOutcome.asFile s) := by
  have hne : all_paths.isEmpty = false := by
    cases all_paths with
    | nil => simp [MAX_PATH_LIMIT] at h
    | cons a rest => simp
  have h0 : github_tree_afterFetch owner name branch subpath all_paths max_depth
      = TreeOutcome.tooLarge all_paths.length := by
    rw [github_tree_afterFetch, if_neg (by simp [hne]), if_pos h]
  exact ⟨h0, fun cs => by rw [h0]; simp, fun s => by rw [h0]; simp⟩

theorem claim_C8_witness :
    github_tree_afterFetch "o" "n" "m" "" (List.replicate 5001 "x") 3
      = TreeOutcome.tooLarge (List.replicate 5001 "x").length :=
  (claim_C8_too_large "o" "n" "m" "" (List.replicate 5001 "x") 3
    (by simp only [List.length_replicate, MAX_PATH_LIMIT]; omega)).1

/-- C10: the too-large ceiling is evaluated on the full repository tree
before any subpath filtering: whenever the full listing exceeds
`MAX_PATH_LIMIT`, the command reports the too-large error for every
requested subpath, even when the paths under that subpath number within
the ceiling — narrowing the subpath never avoids the error. -/
theorem claim_C10_ceiling_before_filter (owner name branch subpath : String)
    (all_paths : List String) (max_depth : Nat)
    (h : MAX_PATH_LIMIT < all_paths.length)
    (hfiltered : (all_paths.filter
        (fun p => p == subpath || pyStartsWith p (subpath ++ "/"))).length
          ≤ MAX_PATH_LIMIT) :
    github_tree_afterFetch owner name branch subpath all_paths max_depth
      = TreeOutcome.tooLarge all_paths.length := by
  have hne : all_paths.isEmpty = false := by
    cases all_paths with
    | nil => simp [MAX_PATH_LIMIT] at h
    | cons a rest => simp
  rw [github_tree_afterFetch, if_neg (by simp [hne]), if_pos h]

theorem claim_C10_witness :
    github_tree_afterFetch "o" "n" "m" "c" (List.replicate 5001 "x") 3
      = TreeOutcome.tooLarge (List.replicate 5001 "x").length := by
  refine claim_C10_ceiling_before_filter "o" "n" "m" "c" _ 3
    (by simp only [List.length_replicate, MAX_PATH_LIMIT]; omega) ?_
  have hfil : (List.replicate 5001 "x").filter
      (fun p => p == "c" || pyStartsWith p ("c" ++ "/")) = [] := by
    rw [List.filter_eq_nil_iff]
    intro a ha
    rw [List.eq_of_mem_replicate ha]
    decide
  rw [hfil]
  simp only [List.length_nil, MAX_PATH_LIMIT]
  omega

/-- C9 counterexample: a 403 response with the `X-RateLimit-Remaining`
header absent is classified `rate_limited` (the code defaults a missing
header to `'0'`), so "rate-limited exactly when the header equals `'0'`"
fails as stated. -/
theorem claim_C9_counterexample :
    github_request true (FetchOutcome.ok (HttpResponse.mk 403 none "body"))
      = ReqResult.rateLimited
    ∧ (HttpResponse.mk 403 none "body").rateLimitRemaining ≠ some "0" := by
  constructor
  · decide
  · decide

/-- C9 (amended): `github_request` returns `rate_limited` exactly on a
403 whose `X-RateLimit-Remaining` header, defaulted to `'0'` when
absent, equals `'0'`; the parsed body exactly on 200; `not_found`
exactly on 404; and the absent result in every other case (unavailable
session, timeout, network error, any other status). -/
theorem claim_C9_request_outcomes (s : Bool) (f : FetchOutcome) :
    (github_request s f = ReqResult.rateLimited ↔ s = true ∧ ∃ r, f = FetchOutcome.ok r
        ∧ r.status = 403 ∧ r.rateLimitRemaining.getD "0" = "0")
    ∧ (∀ b, github_request s f = ReqResult.json b ↔ s = true ∧ ∃ r, f = FetchOutcome.ok r
        ∧ r.status = 200 ∧ r.body = b)
    ∧ (github_request s f = ReqResult.notFound ↔ s = true ∧ ∃ r, f = FetchOutcome.ok r
        ∧ r.status = 404)
    ∧ (github_request s f = ReqResult.failure ↔ (s = false ∨ f = FetchOutcome.timeoutErr
        ∨ f = FetchOutcome.netErr ∨ ∃ r, f = FetchOutcome.ok r ∧ r.status ≠ 200
        ∧ r.status ≠ 404
        ∧ ¬(r.status = 403 ∧ r.rateLimitRemaining.getD "0" = "0"))) := by
  cases s with
  | false => simp [github_request]
  | true =>
    cases f with
    | timeoutErr => simp [github_request]
    | netErr => simp [github_request]
    | ok r =>
      by_cases h403 : r.status = 403 ∧ r.rateLimitRemaining.getD "0" = "0"
      · have hr : github_request true (FetchOutcome.ok r) = ReqResult.rateLimited := by
          rw [github_request]
          simp only [Bool.not_true]
          rw [if_neg (by simp)]
          rw [if_pos h403]
        simp [hr, h403.1, h403.2]
      · by_cases h200 : r.status = 200
        · have hr : github_request true (FetchOutcome.ok r) = ReqResult.json r.body := by
            rw [github_request]
            simp only [Bool.not_true]
            rw [if_neg (by simp), if_neg h403, if_pos h200]
          simp [hr, h200]
        · by_cases h404 : r.status = 404
          · have hr : github_request true (FetchOutcome.ok r) = ReqResult.notFound := by
              rw [github_request]
              simp only [Bool.not_true]
              rw [if_neg (by simp), if_neg h403, if_neg h200, if_pos h404]
            simp [hr, h404, h403]
          · have hr : github_request true (FetchOutcome.ok r) = ReqResult.failure := by
              rw [github_request]
              simp only [Bool.not_true]
              rw [if_neg (by simp), if_neg h403, if_neg h200, if_neg h404]
            simp [hr, h200, h404, h403]
            intro hs hg
            exact h403 ⟨hs, hg⟩

/-- C7: the Input Resolver maps `"octocat/Hello-World"` to
`(octocat, Hello-World, no branch, empty subpath)` and the URL
`"https://github.com/octo/repo/tree/main/src"` to
`(octo, repo, main, src)`; a URL input with fewer than two path segments
and a non-URL input containing no `/` both fail with the invalid-reference
error (`none`). -/
theorem claim_C7_input_resolver :
    parseRepoInput "octocat/Hello-World" = some ("octocat", "Hello-World", none, "")
    ∧ parseRepoInput "https://github.com/octo/repo/tree/main/src"
        = some ("octo", "repo", some "main", "src")
    ∧ (∀ repo, pyStartsWith repo "http" = true →
        (pySplit (stripSlashes (urlPath repo)) '/').length < 2 →
        parseRepoInput repo = none)
    ∧ (∀ repo, pyStartsWith repo "http" = false → repo.data.contains '/' = false →
        parseRepoInput repo = none) := by
  refine ⟨by decide, by decide, ?_, ?_⟩
  · intro repo h1 h2
    rw [parseRepoInput, if_pos h1]
    cases hp : pySplit (stripSlashes (urlPath repo)) '/' with
    | nil => simp [hp]
    | cons a tail =>
      cases tail with
      | nil => simp [hp]
      | cons b tail2 =>
        exfalso
        rw [hp] at h2
        simp only [List.length_cons] at h2
        omega
  · intro repo h1 h2
    rw [parseRepoInput, if_neg (by simp [h1]), if_neg (by rw [h2]; simp)]

theorem claim_C7_witness :
    parseRepoInput "https://github.com" = none ∧ parseRepoInput "README" = none :=
  ⟨claim_C7_input_resolver.2.2.1 "https://github.com" (by decide) (by decide),
   claim_C7_input_resolver.2.2.2 "README" (by decide) (by decide)⟩

/-- C6 counterexample: for the single-file subpath `README.md` with no
descendants, the rendered output is the tree header line followed by the
file entry — two lines, not one line without a header. -/
theorem claim_C6_counterexample :
    computePaths ["README.md"] "README.md" = some ["README.md"]
    ∧ format_tree "o" "n" "main" "README.md" ["README.md"] 3
        = ["📦 o/n/tree/main/README.md", "└── README.md"]
    ∧ (format_tree "o" "n" "main" "README.md" ["README.md"] 3).length ≠ 1 := by
  refine ⟨by decide, ?_, ?_⟩
  · rw [format_tree, buildLines_fuel]
    decide
  · rw [format_tree, buildLines_fuel]
    decide

/-- C6 (amended): when the resolved subpath names a single file with no
descendants in the tree listing (and the subpath is a single path
segment), the subpath filter reduces the path list to `[subpath]` and
the rendered output is exactly two lines: the synthetic root header
followed by the single file entry. -/
theorem claim_C6_single_file (owner name branch subpath : String)
    (all_paths : List String) (max_depth : Nat)
    (hmd : 1 ≤ max_depth)
    (hsp : subpath ≠ "")
    (hsingle : pySplit subpath '/' = [subpath])
    (hmem : subpath ∈ all_paths)
    (hnodesc : ∀ p ∈ all_paths, pyStartsWith p (subpath ++ "/") = false) :
    computePaths all_paths subpath = some [subpath]
    ∧ format_tree owner name branch subpath [subpath] max_depth
        = [rootLine owner name branch subpath, "└── " ++ subpath] := by
  constructor
  · rw [computePaths, if_neg hsp]
    have hmemf : subpath ∈ all_paths.filter
        (fun p => p == subpath || pyStartsWith p (subpath ++ "/")) :=
      List.mem_filter.mpr ⟨hmem, by simp⟩
    rw [if_neg (by rw [List.isEmpty_iff]; exact List.ne_nil_of_mem hmemf)]
    have hany : (all_paths.filter
        (fun p => p == subpath || pyStartsWith p (subpath ++ "/"))).any
          (fun p => pyStartsWith p (subpath ++ "/")) = false := by
      rw [List.any_eq_false]
      intro p hp
      have := hnodesc p (List.mem_filter.mp hp).1
      simp [this]
    rw [if_neg (by simp [hany])]
  · have hb : buildDict [subpath] max_depth = [(subpath, TNode.dict [])] := by
      rw [buildDict]
      simp only [List.foldl_cons, List.foldl_nil]
      rw [hsingle, insertPath, if_neg (by omega)]
      simp [containsE, lookupE]
    have hlines : buildLines [(subpath, TNode.dict [])] "" = ["└── " ++ subpath] := by
      rw [buildLines]
      have hs : sortEntries [(subpath, TNode.dict [])] = [(subpath, TNode.dict [])] := rfl
      rw [hs, renderSorted, renderSorted]
      simp [entryIsDir, isTruncB]
    rw [format_tree, hb, hlines]

/-! ### Machinery for C1: reaching the cutoff entry and rendering it -/

/-- Access a nested entry along a non-empty key chain; the last key is
looked up in the dict reached through the earlier keys. -/
def getChain : Entries → List String → Option TNode
  | _, [] => none
  | d, [k] => lookupE d k
  | d, k :: rest =>
    match lookupE d k with
    | some (.dict sub) => getChain sub rest
    | _ => none

theorem getChain_one (d : Entries) (k : String) : getChain d [k] = lookupE d k := rfl

theorem getChain_cons2 (d : Entries) (k x : String) (xs : List String) :
    getChain d (k :: x :: xs)
      = match lookupE d k with
        | some (TNode.dict sub) => getChain sub (x :: xs)
        | _ => none := rfl

theorem lookupE_mem : ∀ {d : Entries} {k : String} {v : TNode},
    lookupE d k = some v → (k, v) ∈ d := by
  intro d
  induction d with
  | nil => intro k v h; simp [lookupE] at h
  | cons kv rest ih =>
    intro k v h
    rw [lookupE] at h
    by_cases hk : kv.1 = k
    · rw [if_pos hk] at h
      cases h
      rw [← hk]
      simp
    · rw [if_neg hk] at h
      exact List.mem_cons_of_mem _ (ih h)

theorem lookupE_append_left {d : Entries} {k : String} {v : TNode}
    (h : lookupE d k = some v) (d2 : Entries) : lookupE (d ++ d2) k = some v := by
  induction d with
  | nil => simp [lookupE] at h
  | cons kv rest ih =>
    rw [lookupE] at h
    rw [List.cons_append, lookupE]
    by_cases hk : kv.1 = k
    · rw [if_pos hk] at h ⊢
      exact h
    · rw [if_neg hk] at h ⊢
      exact ih h

theorem lookupE_append_self {d : Entries} {k : String}
    (h : lookupE d k = none) (v : TNode) : lookupE (d ++ [(k, v)]) k = some v := by
  induction d with
  | nil => simp [lookupE]
  | cons kv rest ih =>
    rw [lookupE] at h
    rw [List.cons_append, lookupE]
    by_cases hk : kv.1 = k
    · rw [if_pos hk] at h
      cases h
    · rw [if_neg hk] at h ⊢
      exact ih h

theorem lookupE_dictSet_self : ∀ (d : Entries) (k : String) (v : TNode),
    lookupE (dictSet d k v) k = some v := by
  intro d
  induction d with
  | nil => intro k v; simp [dictSet, lookupE]
  | cons kv rest ih =>
    intro k v
    rw [dictSet]
    by_cases hk : kv.1 = k
    · rw [if_pos hk, lookupE, if_pos hk]
    · rw [if_neg hk, lookupE, if_neg hk]
      exact ih k v

theorem lookupE_dictSet_ne : ∀ (d : Entries) (kset kq : String) (v : TNode),
    kset ≠ kq → lookupE (dictSet d kset v) kq = lookupE d kq := by
  intro d
  induction d with
  | nil =>
    intro kset kq v hne
    simp [dictSet, lookupE, hne]
  | cons kv rest ih =>
    intro kset kq v hne
    rw [dictSet]
    by_cases hk : kv.1 = kset
    · rw [if_pos hk, lookupE, lookupE]
      have : ¬kv.1 = kq := by rw [hk]; exact hne
      rw [if_neg this, if_neg this]
    · rw [if_neg hk, lookupE, lookupE]
      by_cases hq : kv.1 = kq
      · rw [if_pos hq, if_pos hq]
      · rw [if_neg hq, if_neg hq]
        exact ih kset kq v hne

/-- Well-formedness of the built dict relative to the remaining depth
budget: with budget `0` every value is the truncation sentinel, and with
positive budget every value is a dict that is well formed one level
lower.  `buildDict` maintains this with budget `max_depth`. -/
def goodDict : Nat → Entries → Prop
  | 0, d => ∀ kv ∈ d, kv.2 = TNode.trunc
  | b + 1, d => ∀ kv ∈ d, ∃ sub, kv.2 = TNode.dict sub ∧ goodDict b sub

theorem goodDict_nil : ∀ b, goodDict b [] := by
  intro b
  cases b <;> simp [goodDict]

theorem goodDict_zero_append {d : Entries} (hd : goodDict 0 d) (k : String) :
    goodDict 0 (d ++ [(k, TNode.trunc)]) := by
  intro kv hkv
  rcases List.mem_append.mp hkv with h | h
  · exact hd kv h
  · rw [List.mem_singleton.mp h]

theorem goodDict_succ_append {b : Nat} {d : Entries} (hd : goodDict (b + 1) d)
    (k : String) : goodDict (b + 1) (d ++ [(k, TNode.dict [])]) := by
  intro kv hkv
  rcases List.mem_append.mp hkv with h | h
  · exact hd kv h
  · rw [List.mem_singleton.mp h]
    exact ⟨[], rfl, goodDict_nil b⟩

theorem mem_dictSet : ∀ {d : Entries} {k : String} {v : TNode} {kv : String × TNode},
    kv ∈ dictSet d k v → kv.2 = v ∨ kv ∈ d := by
  intro d
  induction d with
  | nil =>
    intro k v kv h
    rw [dictSet] at h
    left
    rw [List.mem_singleton.mp h]
  | cons kv0 rest ih =>
    intro k v kv h
    rw [dictSet] at h
    by_cases hk : kv0.1 = k
    · rw [if_pos hk] at h
      rcases List.mem_cons.mp h with h | h
      · left; rw [h]
      · right; exact List.mem_cons_of_mem _ h
    · rw [if_neg hk] at h
      rcases List.mem_cons.mp h with h | h
      · right; rw [h]; exact List.mem_cons_self _ _
      · rcases ih h with h | h
        · left; exact h
        · right; exact List.mem_cons_of_mem _ h

theorem goodDict_dictSet {b : Nat} {d : Entries} {k : String} {sub' : Entries}
    (hd : goodDict (b + 1) d) (hsub' : goodDict b sub') :
    goodDict (b + 1) (dictSet d k (TNode.dict sub')) := by
  intro kv hkv
  rcases mem_dictSet hkv with h | h
  · exact ⟨sub', h, hsub'⟩
  · exact hd kv h

/-- The `d1` step of `insertPath` (ensure the key is present with an
empty dict) preserves well-formedness at positive budget. -/
theorem goodDict_step {b : Nat} {d : Entries} (hd : goodDict (b + 1) d)
    (part : String) :
    goodDict (b + 1)
      (if containsE d part = true then d else d ++ [(part, TNode.dict [])]) := by
  by_cases hc : containsE d part = true
  · rw [if_pos hc]; exact hd
  · rw [if_neg hc]; exact goodDict_succ_append hd part

/-- After the `d1` step, the key is bound to a well-formed sub-dict. -/
theorem lookup_step {b : Nat} {d : Entries} (hd : goodDict (b + 1) d)
    (part : String) :
    ∃ sub, lookupE
        (if containsE d part = true then d else d ++ [(part, TNode.dict [])]) part
        = some (TNode.dict sub)
      ∧ goodDict b sub := by
  by_cases hc : containsE d part = true
  · rw [if_pos hc]
    obtain ⟨v, hv⟩ := Option.isSome_iff_exists.mp hc
    obtain ⟨sub, hsub, hgsub⟩ := hd (part, v) (lookupE_mem hv)
    exact ⟨sub, by rw [hv]; exact congrArg some hsub, hgsub⟩
  · rw [if_neg hc]
    have hnone : lookupE d part = none := by
      rw [containsE] at hc
      exact Option.not_isSome_iff_eq_none.mp (by simpa using hc)
    exact ⟨[], lookupE_append_self hnone _, goodDict_nil b⟩

theorem goodDict_insertPath (maxDepth : Nat) :
    ∀ (parts : List String) (i : Nat) (d : Entries), i ≤ maxDepth →
      goodDict (maxDepth - i) d →
      goodDict (maxDepth - i) (insertPath maxDepth d i parts) := by
  intro parts
  induction parts with
  | nil => intro i d _ hd; simpa [insertPath] using hd
  | cons part rest ih =>
    intro i d hi hd
    rw [insertPath]
    by_cases hcap : maxDepth ≤ i
    · rw [if_pos hcap]
      have hb : maxDepth - i = 0 := by omega
      rw [hb] at hd ⊢
      by_cases hc : containsE d part = true
      · rw [if_pos hc]; exact hd
      · rw [if_neg hc]; exact goodDict_zero_append hd part
    · rw [if_neg hcap]
      obtain ⟨b, hbeq⟩ : ∃ b, maxDepth - i = b + 1 := ⟨maxDepth - i - 1, by omega⟩
      rw [hbeq] at hd ⊢
      have hd1 := goodDict_step hd part
      obtain ⟨sub, hl, hgsub⟩ := lookup_step hd part
      simp only [hl]
      by_cases hre : rest.isEmpty
      · rw [if_pos hre]; exact hd1
      · rw [if_neg hre]
        have hrec := ih (i + 1) sub (by omega) (by
          have : maxDepth - (i + 1) = b := by omega
          rw [this]; exact hgsub)
        have : maxDepth - (i + 1) = b := by omega
        rw [this] at hrec
        exact goodDict_dictSet hd1 hrec

/-- Inserting a path with more segments than the remaining budget leaves
the truncation sentinel reachable along the first `budget + 1` segments. -/
theorem getChain_insert (maxDepth : Nat) :
    ∀ (parts : List String) (i : Nat) (d : Entries), i ≤ maxDepth →
      goodDict (maxDepth - i) d → maxDepth - i < parts.length →
      getChain (insertPath maxDepth d i parts) (parts.take (maxDepth - i + 1))
        = some TNode.trunc := by
  intro parts
  induction parts with
  | nil => intro i d _ _ hlen; simp at hlen
  | cons part rest ih =>
    intro i d hi hd hlen
    rw [insertPath]
    by_cases hcap : maxDepth ≤ i
    · rw [if_pos hcap]
      have hb : maxDepth - i = 0 := by omega
      rw [hb] at hd ⊢
      rw [List.take_succ_cons, List.take_zero]
      rw [getChain_one]
      by_cases hc : containsE d part = true
      · rw [if_pos hc]
        obtain ⟨v, hv⟩ := Option.isSome_iff_exists.mp hc
        have hvt := hd (part, v) (lookupE_mem hv)
        rw [hv]
        exact congrArg some hvt
      · rw [if_neg hc]
        have hnone : lookupE d part = none := by
          rw [containsE] at hc
          exact Option.not_isSome_iff_eq_none.mp (by simpa using hc)
        exact lookupE_append_self hnone _
    · rw [if_neg hcap]
      obtain ⟨b, hbeq⟩ : ∃ b, maxDepth - i = b + 1 := ⟨maxDepth - i - 1, by omega⟩
      rw [hbeq] at hd
      obtain ⟨sub, hl, hgsub⟩ := lookup_step hd part
      simp only [hl]
      have hrestlen : maxDepth - (i + 1) < rest.length := by
        simp only [List.length_cons] at hlen
        omega
      have hre : rest.isEmpty = false := by
        cases rest with
        | nil => simp at hrestlen
        | cons x xs => simp
      rw [if_neg (by simp [hre])]
      rw [hbeq, List.take_succ_cons]
      obtain ⟨x, xs, hxx⟩ : ∃ x xs, rest.take (b + 1) = x :: xs := by
        cases rest with
        | nil => simp at hrestlen
        | cons r rs => exact ⟨r, rs.take b, by simp [List.take_succ_cons]⟩
      rw [hxx, getChain_cons2, lookupE_dictSet_self]
      rw [← hxx]
      have hb2 : b + 1 = maxDepth - (i + 1) + 1 := by omega
      rw [hb2]
      exact ih (i + 1) sub (by omega)
        (by have : maxDepth - (i + 1) = b := by omega
            rw [this]; exact hgsub) hrestlen

/-- Appending a fresh binding at the end of a dict never breaks an
existing chain to the sentinel. -/
theorem getChain_append_persist : ∀ (chain : List String) (d : Entries)
    (kv : String × TNode), getChain d chain = some TNode.trunc →
    getChain (d ++ [kv]) chain = some TNode.trunc := by
  intro chain
  induction chain with
  | nil => intro d kv h; simp [getChain] at h
  | cons k rest ih =>
    intro d kv h
    cases rest with
    | nil =>
      rw [getChain_one] at h ⊢
      exact lookupE_append_left h _
    | cons x xs =>
      rw [getChain_cons2] at h ⊢
      cases hl : lookupE d k with
      | none => rw [hl] at h; simp at h
      | some v =>
        rw [hl] at h
        cases v with
        | trunc => simp at h
        | dict sub =>
          rw [lookupE_append_left hl]
          exact h

/-- Inserting any further path never breaks an existing chain to the
sentinel. -/
theorem getChain_insertPath_persist (maxDepth : Nat) :
    ∀ (parts : List String) (d : Entries) (i : Nat) (chain : List String),
      getChain d chain = some TNode.trunc →
      getChain (insertPath maxDepth d i parts) chain = some TNode.trunc := by
  intro parts
  induction parts with
  | nil => intro d i chain h; simpa [insertPath] using h
  | cons part rest ih =>
    intro d i chain h
    rw [insertPath]
    by_cases hcap : maxDepth ≤ i
    · rw [if_pos hcap]
      by_cases hc : containsE d part = true
      · rw [if_pos hc]; exact h
      · rw [if_neg hc]; exact getChain_append_persist chain d _ h
    · rw [if_neg hcap]
      have h1 : getChain
          (if containsE d part = true then d else d ++ [(part, TNode.dict [])])
          chain = some TNode.trunc := by
        by_cases hc : containsE d part = true
        · rw [if_pos hc]; exact h
        · rw [if_neg hc]; exact getChain_append_persist chain d _ h
      set d1 := if containsE d part = true then d else d ++ [(part, TNode.dict [])]
        with hd1def
      cases hl : lookupE d1 part with
      | none => simpa [hl] using h1
      | some v =>
        cases v with
        | trunc =>
          by_cases hre : rest.isEmpty
          · simp only [hl, if_pos hre]
            exact h1
          · simp only [hl, if_neg hre]
            exact ih d1 (i + 1) chain h1
        | dict sub =>
          by_cases hre : rest.isEmpty
          · simp only [hl, if_pos hre]
            exact h1
          · simp only [hl, if_neg hre]
            cases chain with
            | nil => simp [getChain] at h1
            | cons k restc =>
              cases restc with
              | nil =>
                rw [getChain_one] at h1 ⊢
                by_cases hk : part = k
                · rw [← hk] at h1
                  rw [hl] at h1
                  exact absurd h1 (by simp)
                · rw [lookupE_dictSet_ne d1 part k _ hk]
                  exact h1
              | cons x xs =>
                rw [getChain_cons2] at h1 ⊢
                by_cases hk : part = k
                · rw [← hk] at h1 ⊢
                  rw [hl] at h1
                  rw [lookupE_dictSet_self]
                  exact ih sub (i + 1) (x :: xs) h1
                · rw [lookupE_dictSet_ne d1 part k _ hk]
                  exact h1

/-- The dict accumulated by `buildDict` is well formed at budget
`max_depth`. -/
theorem goodDict_buildDict (paths_list : List String) (max_depth : Nat) :
    goodDict max_depth (buildDict paths_list max_depth) := by
  have main : ∀ (ps : List String) (d : Entries), goodDict max_depth d →
      goodDict max_depth (ps.foldl
        (fun acc p => insertPath max_depth acc 0 (pySplit p '/')) d) := by
    intro ps
    induction ps with
    | nil => intro d hd; simpa using hd
    | cons p rest ih =>
      intro d hd
      simp only [List.foldl_cons]
      apply ih
      have := goodDict_insertPath max_depth (pySplit p '/') 0 d (by omega)
      simpa using this hd
  exact main paths_list [] (goodDict_nil max_depth)

/-- A chain to the sentinel survives the remaining folds of `buildDict`. -/
theorem getChain_foldl_persist (max_depth : Nat) :
    ∀ (ps : List String) (d : Entries) (chain : List String),
      getChain d chain = some TNode.trunc →
      getChain (ps.foldl
        (fun acc p => insertPath max_depth acc 0 (pySplit p '/')) d) chain
        = some TNode.trunc := by
  intro ps
  induction ps with
  | nil => intro d chain h; simpa using h
  | cons p rest ih =>
    intro d chain h
    simp only [List.foldl_cons]
    exact ih _ chain (getChain_insertPath_persist max_depth (pySplit p '/') d 0 chain h)

/-- In the dict built by `format_tree`, every path deeper than the limit
leaves the truncation sentinel reachable along its first
`max_depth + 1` segments. -/
theorem getChain_buildDict {paths_list : List String} {p : String}
    (max_depth : Nat) (hmem : p ∈ paths_list)
    (hlen : max_depth < (pySplit p '/').length) :
    getChain (buildDict paths_list max_depth)
      ((pySplit p '/').take (max_depth + 1)) = some TNode.trunc := by
  obtain ⟨l1, l2, hsplit⟩ := List.append_of_mem hmem
  rw [hsplit, buildDict, List.foldl_append, List.foldl_cons]
  apply getChain_foldl_persist
  have hgood : goodDict max_depth
      (l1.foldl (fun acc p => insertPath max_depth acc 0 (pySplit p '/')) []) := by
    have := goodDict_buildDict l1 max_depth
    rw [buildDict] at this
    exact this
  have := getChain_insert max_depth (pySplit p '/') 0
    (l1.foldl (fun acc p => insertPath max_depth acc 0 (pySplit p '/')) [])
    (by omega) (by simpa using hgood) (by simpa using hlen)
  simpa using this

/-- Every entry of the (sorted) list passed to the render loop receives
exactly one emitted line `p ++ connector ++ key ++ suffix`. -/
theorem emit_line_of_mem : ∀ (l : Entries) (pre : String) (kv : String × TNode),
    kv ∈ l →
    ∃ p c, (c = "├── " ∨ c = "└── ")
      ∧ (p ++ c ++ kv.1 ++ (if entryIsDir kv.2 || isTruncB kv.2 then "/" else ""))
          ∈ renderSorted l pre := by
  intro l
  induction l with
  | nil => intro pre kv h; simp at h
  | cons kv0 rest ih =>
    intro pre kv h
    obtain ⟨k0, v0⟩ := kv0
    rcases List.mem_cons.mp h with hhead | htail
    · refine ⟨pre, if rest.isEmpty then "└── " else "├── ", ?_, ?_⟩
      · by_cases hre : rest.isEmpty <;> simp [hre]
      · rw [renderSorted, hhead]
        exact List.mem_cons_self _ _
    · obtain ⟨p, c, hc, hmem⟩ := ih pre kv htail
      refine ⟨p, c, hc, ?_⟩
      rw [renderSorted]
      exact List.mem_cons_of_mem _ (List.mem_append_right _ hmem)

/-- Every non-empty directory entry of the render list contributes all
the lines of its recursively rendered children. -/
theorem emit_sub_of_mem : ∀ (l : Entries) (pre : String) (k : String) (sub : Entries),
    (k, TNode.dict sub) ∈ l → sub ≠ [] →
    ∃ pre', ∀ s ∈ renderSorted (sortEntries sub) pre', s ∈ renderSorted l pre := by
  intro l
  induction l with
  | nil => intro pre k sub h _; simp at h
  | cons kv0 rest ih =>
    intro pre k sub h hne
    obtain ⟨k0, v0⟩ := kv0
    rcases List.mem_cons.mp h with hhead | htail
    · obtain ⟨hk0k, hv0⟩ := Prod.mk.inj hhead
      have hdir : entryIsDir v0 = true := by
        rw [← hv0, entryIsDir]
        simpa [List.isEmpty_iff] using hne
      refine ⟨pre ++ (if rest.isEmpty then "    " else "│   "), ?_⟩
      intro s hs
      rw [renderSorted]
      refine List.mem_cons_of_mem _ (List.mem_append_left _ ?_)
      rw [dif_pos hdir]
      have hchild : childEntries v0 = sub := by rw [← hv0, childEntries]
      rw [hchild]
      exact hs
    · obtain ⟨pre', hincl⟩ := ih pre k sub htail hne
      refine ⟨pre', ?_⟩
      intro s hs
      rw [renderSorted]
      exact List.mem_cons_of_mem _ (List.mem_append_right _ (hincl s hs))

/-- `getChain` on an empty dict finds nothing. -/
theorem getChain_nil_entries : ∀ (chain : List String), getChain [] chain = none := by
  intro chain
  cases chain with
  | nil => rfl
  | cons k rest =>
    cases rest with
    | nil => rfl
    | cons x xs => rfl

/-- A chain ending at the truncation sentinel yields a rendered line for
the chain's last key, marked with the `/` suffix. -/
theorem trunc_line_of_chain : ∀ (ks : List String) (k : String) (d : Entries)
    (pre : String), getChain d (ks ++ [k]) = some TNode.trunc →
    ∃ p c, (c = "├── " ∨ c = "└── ")
      ∧ (p ++ c ++ k ++ "/") ∈ renderSorted (sortEntries d) pre := by
  intro ks
  induction ks with
  | nil =>
    intro k d pre h
    rw [List.nil_append, getChain_one] at h
    have hmem : (k, TNode.trunc) ∈ sortEntries d :=
      (sortEntries_perm d).mem_iff.mpr (lookupE_mem h)
    obtain ⟨p, c, hc, hline⟩ := emit_line_of_mem (sortEntries d) pre (k, TNode.trunc) hmem
    refine ⟨p, c, hc, ?_⟩
    simpa [entryIsDir, isTruncB] using hline
  | cons k0 ks' ih =>
    intro k d pre h
    obtain ⟨x, xs, hxx⟩ : ∃ x xs, ks' ++ [k] = x :: xs := by
      cases ks' with
      | nil => exact ⟨k, [], rfl⟩
      | cons a rest => exact ⟨a, rest ++ [k], rfl⟩
    rw [List.cons_append, hxx, getChain_cons2] at h
    cases hl : lookupE d k0 with
    | none => rw [hl] at h; simp at h
    | some v =>
      rw [hl] at h
      cases v with
      | trunc => simp at h
      | dict sub =>
        have hchain : getChain sub (ks' ++ [k]) = some TNode.trunc := by
          rw [hxx]; exact h
        have hsubne : sub ≠ [] := by
          intro hnil
          rw [hnil, getChain_nil_entries] at hchain
          cases hchain
        have hmem : (k0, TNode.dict sub) ∈ sortEntries d :=
          (sortEntries_perm d).mem_iff.mpr (lookupE_mem hl)
        obtain ⟨pre', hincl⟩ := emit_sub_of_mem (sortEntries d) pre k0 sub hmem hsubne
        obtain ⟨p, c, hc, hline⟩ := ih k sub pre' hchain
        exact ⟨p, c, hc, hincl _ hline⟩

/-- Every rendered line extends the incoming indentation by at most four
characters per tree level: `s = (pre ++ ext) ++ connector ++ key ++ suffix`
with `pyLen ext ≤ 4 * entriesDepth l`. -/
theorem renderSorted_shape : ∀ (l : Entries) (pre : String), ∀ s ∈ renderSorted l pre,
    ∃ ext c k sfx, (c = "├── " ∨ c = "└── ")
      ∧ s = (pre ++ ext) ++ c ++ k ++ sfx
      ∧ pyLen ext ≤ 4 * entriesDepth l := by
  intro l pre
  induction l, pre using renderSorted.induct with
  | case1 pre => intro s hs; simp [renderSorted] at hs
  | case2 key v rest pre ih1 ih2 =>
    intro s hs
    rw [renderSorted] at hs
    rcases List.mem_cons.mp hs with hhead | htail
    · refine ⟨"", if rest.isEmpty then "└── " else "├── ", key,
        if entryIsDir v || isTruncB v then "/" else "", ?_, ?_, ?_⟩
      · by_cases hre : rest.isEmpty = true
        · right; rw [if_pos hre]
        · left; rw [if_neg hre]
      · rw [String.append_empty]
        exact hhead
      · have h0 : pyLen "" = 0 := rfl
        omega
    · rcases List.mem_append.mp htail with hchild | hsib
      · by_cases hdir : entryIsDir v = true
        · rw [dif_pos hdir] at hchild
          have ih1' := ih1 hdir
          simp only [dite_eq_ite] at ih1'
          obtain ⟨ext', c, k, sfx, hc, hs', hb⟩ := ih1' s hchild
          refine ⟨(if rest.isEmpty then "    " else "│   ") ++ ext', c, k, sfx, hc, ?_, ?_⟩
          · rw [hs', str_append_assoc pre (if rest.isEmpty then "    " else "│   ") ext']
          · rw [pyLen_append]
            have hbl : pyLen (if rest.isEmpty then "    " else "│   ") = 4 := by
              by_cases hre : rest.isEmpty = true
              · rw [if_pos hre]; rfl
              · rw [if_neg hre]; rfl
            rw [hbl]
            have hb' : pyLen ext' ≤ 4 * entriesDepth (childEntries v) := by
              rw [entriesDepth_sortEntries] at hb
              exact hb
            have hlt := entryIsDir_childDepth hdir
            have hcons : nodeDepth v ≤ entriesDepth ((key, v) :: rest) := by
              rw [entriesDepth_cons]
              exact le_max_left _ _
            omega
        · rw [dif_neg hdir] at hchild
          simp at hchild
      · obtain ⟨ext, c, k, sfx, hc, hs', hb⟩ := ih2 s hsib
        refine ⟨ext, c, k, sfx, hc, hs', ?_⟩
        have hcons : entriesDepth rest ≤ entriesDepth ((key, v) :: rest) := by
          rw [entriesDepth_cons]
          exact le_max_right _ _
        omega

/-- C1: for every path list and depth limit at least 1, every line of
`format_tree` is the root header or has indentation of at most
`4 * max_depth` characters (`max_depth` glyph levels); and every path
whose segment count exceeds the limit still gets a rendered entry for
its segment at index `max_depth` (the cutoff), marked with the `/`
suffix rather than being silently omitted. -/
theorem claim_C1_depth_and_cutoff (owner name branch subpath : String)
    (paths_list : List String) (max_depth : Nat) (hmd : 1 ≤ max_depth) :
    (∀ l ∈ format_tree owner name branch subpath paths_list max_depth,
        l = rootLine owner name branch subpath
        ∨ ∃ p c k sfx, (c = "├── " ∨ c = "└── ")
            ∧ l = p ++ c ++ k ++ sfx ∧ pyLen p ≤ 4 * max_depth)
    ∧ (∀ pth ∈ paths_list, ∀ hd : max_depth < (pySplit pth '/').length,
        ∃ l ∈ format_tree owner name branch subpath paths_list max_depth,
          ∃ p c, (c = "├── " ∨ c = "└── ")
            ∧ l = p ++ c ++ (pySplit pth '/').get ⟨max_depth, hd⟩ ++ "/") := by
  constructor
  · intro l hl
    rw [format_tree] at hl
    rcases List.mem_cons.mp hl with hroot | hrest
    · left; exact hroot
    · right
      rw [buildLines] at hrest
      obtain ⟨ext, c, k, sfx, hc, hs', hb⟩ := renderSorted_shape _ "" l hrest
      refine ⟨"" ++ ext, c, k, sfx, hc, hs', ?_⟩
      rw [entriesDepth_sortEntries] at hb
      have hbd := entriesDepth_buildDict paths_list max_depth
      have hlen : pyLen ("" ++ ext) = pyLen ext := by
        rw [pyLen_append]
        have h0 : pyLen "" = 0 := rfl
        omega
      omega
  · intro pth hmem hd
    have hchain := getChain_buildDict max_depth hmem hd
    have htake : (pySplit pth '/').take (max_depth + 1)
        = (pySplit pth '/').take max_depth
            ++ [(pySplit pth '/').get ⟨max_depth, hd⟩] := by
      rw [List.take_succ]
      congr 1
      rw [List.getElem?_eq_getElem hd]
      rfl
    rw [htake] at hchain
    obtain ⟨p, c, hc, hline⟩ := trunc_line_of_chain _ _ _ "" hchain
    refine ⟨_, ?_, p, c, hc, rfl⟩
    rw [format_tree]
    refine List.mem_cons_of_mem _ ?_
    rw [buildLines]
    exact hline

theorem claim_C1_witness :
    (∀ l ∈ format_tree "ow" "re" "dev" "" ["a/b/c"] 1,
        l = rootLine "ow" "re" "dev" ""
        ∨ ∃ p c k sfx, (c = "├── " ∨ c = "└── ")
            ∧ l = p ++ c ++ k ++ sfx ∧ pyLen p ≤ 4 * 1)
    ∧ (∀ pth ∈ ["a/b/c"], ∀ hd : 1 < (pySplit pth '/').length,
        ∃ l ∈ format_tree "ow" "re" "dev" "" ["a/b/c"] 1,
          ∃ p c, (c = "├── " ∨ c = "└── ")
            ∧ l = p ++ c ++ (pySplit pth '/').get ⟨1, hd⟩ ++ "/") :=
  claim_C1_depth_and_cutoff "ow" "re" "dev" "" ["a/b/c"] 1 (by decide)

theorem claim_C6_witness :
    computePaths ["LICENSE", "src/a.py"] "LICENSE" = some ["LICENSE"]
    ∧ format_tree "ow" "re" "dev" "LICENSE" ["LICENSE"] 2
        = [rootLine "ow" "re" "dev" "LICENSE", "└── " ++ "LICENSE"] :=
  claim_C6_single_file "ow" "re" "dev" "LICENSE" ["LICENSE", "src/a.py"] 2
    (by decide) (by decide) (by decide) (by decide) (by decide)
